import Mathlib

/-!
Verification of the `WorkSourceGroup` scheduler core
(`src/core/worksourcegroup.py`) against its natural-language specification.

Shallow embedding conventions:
* Python floats are modelled as exact rationals (`ℚ`); the literals `0.1`,
  `0.9` and `2**32 / 1000000.` become `1/10`, `9/10` and `2 ^ 32 / 1000000`.
* A child work source is a record of the settings and counters the group
  reads or writes.  The behaviour of a child's own recursive
  `start_fetchers(1, jobs)` call (leaf implementations live outside this
  repository; see spec section 6) is abstracted as the oracle fields
  `respond_result` / `respond_jobs`; a Python return value of `False` is
  `Option.none`, a numeric result `n` is `some n`.
* Imperative loops become accumulator-passing recursions over the
  children list; in-place counter updates rebuild the list.
-/

/-- A child work source as seen by its parent group: the settings consulted
by `_distribute_mhashes` / `_start_fetcher`, the two quota counters, the
`is_group` flag, and the oracle describing the child's recursive
`start_fetchers(1, jobs)` answer. -/
structure Child where
  enabled : Bool
  priority : ℚ
  hashrate : ℚ
  mhashes_pending : ℚ
  mhashes_deferred : ℚ
  is_group : Bool
  respond_result : Option ℕ
  respond_jobs : ℕ
deriving DecidableEq

instance : Inhabited Child := ⟨⟨false, 0, 0, 0, 0, false, none, 0⟩⟩

/-- First loop of `_distribute_mhashes` (source lines 144-151): walk the
children; every enabled child gets `timestep * hashrate` plus a tenth of
its deferred quota credited to `mhashes_pending`, `timestep * hashrate`
is subtracted from the remaining pool, the child's priority is added to
`total_priority`, and its deferred quota is scaled by `9/10`.  Returns
`(total_priority, mhashes_remaining, updated children)`. -/
def firstPass (timestep : ℚ) : ℚ → ℚ → List Child → ℚ × ℚ × List Child
  | total_priority, mhashes_remaining, [] => (total_priority, mhashes_remaining, [])
  | total_priority, mhashes_remaining, child :: rest =>
    if child.enabled then
      let mhashes := timestep * child.hashrate
      let child1 := { child with
        mhashes_pending := child.mhashes_pending + (mhashes + child.mhashes_deferred * (1/10)),
        mhashes_deferred := child.mhashes_deferred * (9/10) }
      let next := firstPass timestep (total_priority + child.priority) (mhashes_remaining - mhashes) rest
      (next.1, next.2.1, child1 :: next.2.2)
    else
      let next := firstPass timestep total_priority mhashes_remaining rest
      (next.1, next.2.1, child :: next.2.2)

/-- Second loop of `_distribute_mhashes` (source lines 154-159): each
enabled child gets `unit * priority` credited to `mhashes_pending`, which
is also subtracted from the remaining pool. -/
def secondPass (unit : ℚ) : ℚ → List Child → ℚ × List Child
  | mhashes_remaining, [] => (mhashes_remaining, [])
  | mhashes_remaining, child :: rest =>
    if child.enabled then
      let mhashes := unit * child.priority
      let child1 := { child with mhashes_pending := child.mhashes_pending + mhashes }
      let next := secondPass unit (mhashes_remaining - mhashes) rest
      (next.1, child1 :: next.2)
    else
      let next := secondPass unit mhashes_remaining rest
      (next.1, child :: next.2)

/-- `_distribute_mhashes` (source lines 137-159), also returning the final
value of the local `mhashes_remaining` counter.  The pool is initialised
to `2 ** 32 / 1000000. * distribution_granularity`; the second pass runs
only when the remaining pool and the total priority are both positive,
with `unit = mhashes_remaining / total_priority`.  The elapsed-time
bookkeeping (`last_time`) is externalised into the `timestep` argument. -/
def distribute_mhashes_core (granularity timestep : ℚ) (children : List Child) :
    List Child × ℚ :=
  let fp := firstPass timestep 0 (2 ^ 32 / 1000000 * granularity) children
  if 0 < fp.2.1 ∧ 0 < fp.1 then
    let sp := secondPass (fp.2.1 / fp.1) fp.2.1 fp.2.2
    (sp.2, sp.1)
  else (fp.2.2, fp.2.1)

/-- The children list produced by one `_distribute_mhashes` tick. -/
def distribute_mhashes (granularity timestep : ℚ) (children : List Child) : List Child :=
  (distribute_mhashes_core granularity timestep children).1

/-- Per-child effect of the first pass on an enabled child (no effect on a
disabled one); used to characterise `firstPass`. -/
def firstPassChild (timestep : ℚ) (child : Child) : Child :=
  if child.enabled then
    { child with
      mhashes_pending := child.mhashes_pending + (timestep * child.hashrate + child.mhashes_deferred * (1/10)),
      mhashes_deferred := child.mhashes_deferred * (9/10) }
  else child

/-- Per-child effect of the second pass on an enabled child: credit
`unit * priority` to the pending quota. -/
def secondPassChild (unit : ℚ) (child : Child) : Child :=
  if child.enabled then
    { child with mhashes_pending := child.mhashes_pending + unit * child.priority }
  else child

/-- Sum of `mhashes_pending` over a children list. -/
def totalPending (children : List Child) : ℚ :=
  (children.map (·.mhashes_pending)).sum

/-- Sum of `priority` over the enabled children. -/
def enabledPrioritySum (children : List Child) : ℚ :=
  ((children.filter (·.enabled)).map (·.priority)).sum

/-- Sum of `timestep * hashrate` over the enabled children: the amount the
first pass removes from the pool. -/
def enabledHashSum (timestep : ℚ) (children : List Child) : ℚ :=
  ((children.filter (·.enabled)).map (fun c => timestep * c.hashrate)).sum

/-- Sum of `mhashes_deferred` over the enabled children. -/
def enabledDeferredSum (children : List Child) : ℚ :=
  ((children.filter (·.enabled)).map (·.mhashes_deferred)).sum

theorem firstPassChild_enabled (timestep : ℚ) (c : Child) :
    (firstPassChild timestep c).enabled = c.enabled := by
  unfold firstPassChild; split <;> rfl

theorem firstPassChild_priority (timestep : ℚ) (c : Child) :
    (firstPassChild timestep c).priority = c.priority := by
  unfold firstPassChild; split <;> rfl

theorem secondPassChild_deferred (unit : ℚ) (c : Child) :
    (secondPassChild unit c).mhashes_deferred = c.mhashes_deferred := by
  unfold secondPassChild; split <;> rfl

/-- Closed form of the first pass: the accumulated priority is the sum of
enabled priorities, the pool loses exactly the sum of `timestep * hashrate`
over enabled children, and every child is updated by `firstPassChild`. -/
theorem firstPass_eq (timestep : ℚ) :
    ∀ (cs : List Child) (tp r : ℚ),
      firstPass timestep tp r cs =
        (tp + enabledPrioritySum cs, r - enabledHashSum timestep cs,
          cs.map (firstPassChild timestep)) := by
  intro cs
  induction cs with
  | nil =>
    intro tp r
    simp [firstPass, enabledPrioritySum, enabledHashSum]
  | cons c rest ih =>
    intro tp r
    by_cases hc : c.enabled = true
    · simp only [firstPass, hc, if_true, ih, List.map_cons]
      refine Prod.ext ?_ (Prod.ext ?_ ?_)
      · simp [enabledPrioritySum, List.filter_cons, hc]; ring
      · simp [enabledHashSum, List.filter_cons, hc]; ring
      · simp [firstPassChild, hc]
    · simp only [firstPass, hc, if_false, ih, List.map_cons]
      refine Prod.ext ?_ (Prod.ext ?_ ?_)
      · simp [enabledPrioritySum, List.filter_cons, hc]
      · simp [enabledHashSum, List.filter_cons, hc]
      · simp [firstPassChild, hc]

/-- Closed form of the second pass: the pool loses `unit * priority` summed
over enabled children and every child is updated by `secondPassChild`. -/
theorem secondPass_eq (unit : ℚ) :
    ∀ (cs : List Child) (r : ℚ),
      secondPass unit r cs =
        (r - unit * enabledPrioritySum cs, cs.map (secondPassChild unit)) := by
  intro cs
  induction cs with
  | nil =>
    intro r
    simp [secondPass, enabledPrioritySum]
  | cons c rest ih =>
    intro r
    by_cases hc : c.enabled = true
    · simp only [secondPass, hc, if_true, ih, List.map_cons]
      refine Prod.ext ?_ ?_
      · simp [enabledPrioritySum, List.filter_cons, hc]; ring
      · simp [secondPassChild, hc]
    · simp only [secondPass, hc, if_false, ih, List.map_cons]
      refine Prod.ext ?_ ?_
      · simp [enabledPrioritySum, List.filter_cons, hc]
      · simp [secondPassChild, hc]

theorem totalPending_map_firstPassChild (timestep : ℚ) :
    ∀ cs : List Child,
      totalPending (cs.map (firstPassChild timestep)) =
        totalPending cs + enabledHashSum timestep cs + enabledDeferredSum cs * (1/10) := by
  intro cs
  induction cs with
  | nil => simp [totalPending, enabledHashSum, enabledDeferredSum]
  | cons c rest ih =>
    by_cases hc : c.enabled = true
    · simp only [List.map_cons, totalPending, List.sum_cons] at ih ⊢
      simp [firstPassChild, hc, enabledHashSum, enabledDeferredSum, List.filter_cons] at ih ⊢
      rw [ih]; ring
    · simp only [List.map_cons, totalPending, List.sum_cons] at ih ⊢
      simp [firstPassChild, hc, enabledHashSum, enabledDeferredSum, List.filter_cons] at ih ⊢
      rw [ih]; ring

theorem totalPending_map_secondPassChild (unit : ℚ) :
    ∀ cs : List Child,
      totalPending (cs.map (secondPassChild unit)) =
        totalPending cs + unit * enabledPrioritySum cs := by
  intro cs
  induction cs with
  | nil => simp [totalPending, enabledPrioritySum]
  | cons c rest ih =>
    by_cases hc : c.enabled = true
    · simp only [List.map_cons, totalPending, List.sum_cons] at ih ⊢
      simp [secondPassChild, hc, enabledPrioritySum, List.filter_cons] at ih ⊢
      rw [ih]; ring
    · simp only [List.map_cons, totalPending, List.sum_cons] at ih ⊢
      simp [secondPassChild, hc, enabledPrioritySum, List.filter_cons] at ih ⊢
      rw [ih]; ring

theorem enabledPrioritySum_map_firstPassChild (timestep : ℚ) :
    ∀ cs : List Child,
      enabledPrioritySum (cs.map (firstPassChild timestep)) = enabledPrioritySum cs := by
  intro cs
  induction cs with
  | nil => simp [enabledPrioritySum]
  | cons c rest ih =>
    by_cases hc : c.enabled = true
    · simp [enabledPrioritySum, List.filter_cons, firstPassChild_enabled, hc,
        firstPassChild_priority] at ih ⊢
      exact ih
    · simp [enabledPrioritySum, List.filter_cons, firstPassChild_enabled, hc] at ih ⊢
      exact ih

theorem distribute_mhashes_length (granularity timestep : ℚ) (cs : List Child) :
    (distribute_mhashes granularity timestep cs).length = cs.length := by
  unfold distribute_mhashes distribute_mhashes_core
  rw [firstPass_eq]
  dsimp only
  split
  · rw [secondPass_eq]; simp
  · simp

/-- The value of the local `total_priority` after the first pass of a tick. -/
def tickTotalPriority (granularity timestep : ℚ) (cs : List Child) : ℚ :=
  (firstPass timestep 0 (2 ^ 32 / 1000000 * granularity) cs).1

/-- The value of the local `mhashes_remaining` after the first pass of a tick. -/
def tickRemaining (granularity timestep : ℚ) (cs : List Child) : ℚ :=
  (firstPass timestep 0 (2 ^ 32 / 1000000 * granularity) cs).2.1

/-- The children list after the first pass of a tick. -/
def tickFirstPassChildren (granularity timestep : ℚ) (cs : List Child) : List Child :=
  (firstPass timestep 0 (2 ^ 32 / 1000000 * granularity) cs).2.2

theorem tickTotalPriority_eq (granularity timestep : ℚ) (cs : List Child) :
    tickTotalPriority granularity timestep cs = enabledPrioritySum cs := by
  unfold tickTotalPriority
  rw [firstPass_eq]
  simp

theorem tickRemaining_eq (granularity timestep : ℚ) (cs : List Child) :
    tickRemaining granularity timestep cs =
      2 ^ 32 / 1000000 * granularity - enabledHashSum timestep cs := by
  unfold tickRemaining
  rw [firstPass_eq]

theorem tickFirstPassChildren_eq (granularity timestep : ℚ) (cs : List Child) :
    tickFirstPassChildren granularity timestep cs = cs.map (firstPassChild timestep) := by
  unfold tickFirstPassChildren
  rw [firstPass_eq]

theorem distribute_mhashes_core_pos (granularity timestep : ℚ) (cs : List Child)
    (h1 : 0 < tickRemaining granularity timestep cs)
    (h2 : 0 < tickTotalPriority granularity timestep cs) :
    distribute_mhashes_core granularity timestep cs =
      ((cs.map (firstPassChild timestep)).map
          (secondPassChild (tickRemaining granularity timestep cs /
            tickTotalPriority granularity timestep cs)),
        tickRemaining granularity timestep cs -
          tickRemaining granularity timestep cs /
            tickTotalPriority granularity timestep cs * enabledPrioritySum cs) := by
  unfold distribute_mhashes_core
  rw [if_pos ⟨h1, h2⟩]
  dsimp only
  rw [secondPass_eq]
  rw [show (firstPass timestep 0 (2 ^ 32 / 1000000 * granularity) cs).2.2 =
      tickFirstPassChildren granularity timestep cs from rfl,
    tickFirstPassChildren_eq, enabledPrioritySum_map_firstPassChild]
  rfl

/-- C8: when the second pass runs, the final value of the remaining-pool
counter is zero: the proportional credits sum exactly to the remainder. -/
theorem c8_proportional_second_pass (granularity timestep : ℚ) (cs : List Child)
    (h1 : 0 < tickRemaining granularity timestep cs)
    (h2 : 0 < tickTotalPriority granularity timestep cs) :
    (distribute_mhashes_core granularity timestep cs).2 = 0 ∧
    ∀ i c, (tickFirstPassChildren granularity timestep cs).get? i = some c →
      (distribute_mhashes granularity timestep cs).get? i =
        some (if c.enabled = true
          then { c with mhashes_pending := c.mhashes_pending +
                  tickRemaining granularity timestep cs * c.priority /
                    tickTotalPriority granularity timestep cs }
          else c) := by
  have hcore := distribute_mhashes_core_pos granularity timestep cs h1 h2
  constructor
  · rw [hcore]
    dsimp only
    rw [← tickTotalPriority_eq granularity timestep cs,
      div_mul_cancel₀ _ (ne_of_gt h2), sub_self]
  · intro i c hi
    unfold distribute_mhashes
    rw [hcore]
    dsimp only
    rw [tickFirstPassChildren_eq] at hi
    rw [List.get?_map, hi]
    by_cases hc : c.enabled = true
    · simp only [Option.map_some', secondPassChild, hc, if_true]
      rw [div_mul_eq_mul_div]
    · simp [secondPassChild, hc]

/-- C8 witness: a concrete tick with one enabled child in which the second
pass runs and ends with a zero remaining pool. -/
theorem c8_proportional_second_pass_witness :
    (distribute_mhashes_core 16 0 [⟨true, 1, 0, 0, 0, false, none, 0⟩]).2 = 0 :=
  (c8_proportional_second_pass 16 0 [⟨true, 1, 0, 0, 0, false, none, 0⟩]
    (by norm_num [tickRemaining, firstPass, enabledHashSum])
    (by norm_num [tickTotalPriority, firstPass, enabledPrioritySum])).1

/-- C1 as the spec states it: the quota freshly minted by one tick (the
total pending-quota increase minus the decayed deferred carry-forward)
should equal `elapsed * unit_rate * distribution_granularity`. -/
def c1claim (granularity timestep : ℚ) (cs : List Child) : Prop :=
  totalPending (distribute_mhashes granularity timestep cs) =
    totalPending cs + enabledDeferredSum cs * (1/10) +
      timestep * (2 ^ 32 / 1000000) * granularity

/-- C1 counterexample: with `distribution_granularity = 16` and an elapsed
time of 2 seconds, the pool minted by the code is `2^32/10^6 * 16`, not
`2 * 2^32/10^6 * 16`: the code's pool formula has no elapsed factor. -/
theorem c1_counterexample :
    ¬ c1claim 16 2 [⟨true, 1, 0, 0, 0, false, none, 0⟩] := by
  unfold c1claim
  norm_num [distribute_mhashes, distribute_mhashes_core, firstPass, secondPass,
    totalPending, enabledDeferredSum]

/-- C1 (amended): in a tick whose second pass runs, the total quota newly
minted (total pending increase minus the `0.1 *` deferred carry-forward)
equals `2^32/10^6 * distribution_granularity` exactly — a function of the
granularity alone, independent of the elapsed time and of the number of
children. -/
theorem c1_minted_pool (granularity timestep : ℚ) (cs : List Child)
    (h1 : 0 < tickRemaining granularity timestep cs)
    (h2 : 0 < tickTotalPriority granularity timestep cs) :
    totalPending (distribute_mhashes granularity timestep cs) =
      totalPending cs + enabledDeferredSum cs * (1/10) +
        2 ^ 32 / 1000000 * granularity := by
  unfold distribute_mhashes
  rw [distribute_mhashes_core_pos granularity timestep cs h1 h2]
  dsimp only
  rw [totalPending_map_secondPassChild, enabledPrioritySum_map_firstPassChild,
    totalPending_map_firstPassChild, ← tickTotalPriority_eq granularity timestep cs,
    div_mul_cancel₀ _ (ne_of_gt h2), tickRemaining_eq]
  ring

/-- C1 witness: concrete instance of the amended minted-pool theorem. -/
theorem c1_minted_pool_witness :
    totalPending (distribute_mhashes 16 0 [⟨true, 1, 0, 0, 0, false, none, 0⟩]) =
      totalPending [⟨true, 1, 0, 0, 0, false, none, 0⟩] +
        enabledDeferredSum [⟨true, 1, 0, 0, 0, false, none, 0⟩] * (1/10) +
        2 ^ 32 / 1000000 * 16 :=
  c1_minted_pool 16 0 [⟨true, 1, 0, 0, 0, false, none, 0⟩]
    (by norm_num [tickRemaining, firstPass, enabledHashSum])
    (by norm_num [tickTotalPriority, firstPass, enabledPrioritySum])

/-- C6 as the spec states it: each enabled child's pending quota grows by
`timestep * hashrate + deferred/10`, and the *same* amount is subtracted
from the remaining pool. -/
def c6claim (timestep r0 : ℚ) (cs : List Child) : Prop :=
  (∀ i c, cs.get? i = some c → c.enabled = true →
    ((firstPass timestep 0 r0 cs).2.2.get? i).map (·.mhashes_pending) =
      some (c.mhashes_pending + (timestep * c.hashrate + c.mhashes_deferred * (1/10)))) ∧
  (firstPass timestep 0 r0 cs).2.1 =
    r0 - ((cs.filter (·.enabled)).map
      (fun c => timestep * c.hashrate + c.mhashes_deferred * (1/10))).sum

/-- C6 counterexample: one enabled child with `hashrate = 0` and
`mhashes_deferred = 10` is credited `1` in the first pass, yet the pool is
reduced by `0`, not by `1`: the deferred carry-forward is never charged to
the pool. -/
theorem c6_counterexample :
    ¬ c6claim 1 0 [⟨true, 0, 0, 0, 10, false, none, 0⟩] := by
  intro h
  have h2 := h.2
  norm_num [firstPass] at h2

/-- C6 (amended): each enabled child's pending quota grows by exactly
`timestep * hashrate + deferred/10`, but only the `timestep * hashrate`
part is subtracted from the remaining pool. -/
theorem c6_first_pass (timestep r0 : ℚ) (cs : List Child) (i : ℕ) (c : Child)
    (h : cs.get? i = some c) (hc : c.enabled = true) :
    ((firstPass timestep 0 r0 cs).2.2.get? i).map (·.mhashes_pending) =
      some (c.mhashes_pending + (timestep * c.hashrate + c.mhashes_deferred * (1/10))) ∧
    (firstPass timestep 0 r0 cs).2.1 = r0 - enabledHashSum timestep cs := by
  rw [firstPass_eq]
  constructor
  · dsimp only
    rw [List.get?_map, h]
    simp [firstPassChild, hc]
  · dsimp only

/-- C6 witness: concrete instance of the amended first-pass theorem. -/
theorem c6_first_pass_witness :
    ((firstPass 5 0 7 [⟨true, 1, 2, 3, 4, false, none, 0⟩]).2.2.get? 0).map
        (·.mhashes_pending) = some (3 + (5 * 2 + 4 * (1/10))) ∧
    (firstPass 5 0 7 [⟨true, 1, 2, 3, 4, false, none, 0⟩]).2.1 =
      7 - enabledHashSum 5 [⟨true, 1, 2, 3, 4, false, none, 0⟩] :=
  c6_first_pass 5 7 [⟨true, 1, 2, 3, 4, false, none, 0⟩] 0
    ⟨true, 1, 2, 3, 4, false, none, 0⟩ rfl rfl

/-- C7 as the spec states it: every child's deferred quota, enabled or
not, is scaled by `9/10` in a tick. -/
def c7claim (granularity timestep : ℚ) (cs : List Child) : Prop :=
  ∀ i c, cs.get? i = some c →
    ((distribute_mhashes granularity timestep cs).get? i).map (·.mhashes_deferred) =
      some (c.mhashes_deferred * (9/10))

/-- C7 counterexample: a disabled child's deferred quota is untouched by a
tick (it stays `1` instead of decaying to `9/10`): the decay is applied
inside the `if child.settings.enabled` branch only. -/
theorem c7_counterexample :
    ¬ c7claim 0 0 [⟨false, 0, 0, 0, 1, false, none, 0⟩] := by
  intro h
  have h0 := h 0 ⟨false, 0, 0, 0, 1, false, none, 0⟩ rfl
  norm_num [distribute_mhashes, distribute_mhashes_core, firstPass] at h0

/-- C7 (amended): a tick multiplies the deferred quota of every *enabled*
child by `9/10` and leaves a disabled child's deferred quota unchanged;
for an enabled child with nonzero deferred quota the magnitude strictly
decreases. -/
theorem c7_deferred_decay (granularity timestep : ℚ) (cs : List Child) (i : ℕ) (c : Child)
    (h : cs.get? i = some c) :
    ((distribute_mhashes granularity timestep cs).get? i).map (·.mhashes_deferred) =
      some (if c.enabled = true then c.mhashes_deferred * (9/10) else c.mhashes_deferred) ∧
    (c.enabled = true → c.mhashes_deferred ≠ 0 →
      |c.mhashes_deferred * (9/10)| < |c.mhashes_deferred|) := by
  constructor
  · unfold distribute_mhashes distribute_mhashes_core
    rw [firstPass_eq]
    dsimp only
    split
    · rw [secondPass_eq]
      dsimp only
      rw [List.get?_map, List.get?_map, h]
      simp only [Option.map_some']
      rw [secondPassChild_deferred]
      by_cases hc : c.enabled = true <;> simp [firstPassChild, hc]
    · rw [List.get?_map, h]
      by_cases hc : c.enabled = true <;> simp [firstPassChild, hc]
  · intro _ hd
    rw [abs_mul, abs_of_pos (show (0:ℚ) < 9/10 by norm_num)]
    exact mul_lt_of_lt_one_right (abs_pos.mpr hd) (by norm_num)

/-- C7 witness: concrete instance of the amended decay theorem for an
enabled child with deferred quota `2`. -/
theorem c7_deferred_decay_witness :
    ((distribute_mhashes 0 0 [⟨true, 0, 0, 0, 2, false, none, 0⟩]).get? 0).map
        (·.mhashes_deferred) = some (if true = true then 2 * (9/10) else (2:ℚ)) ∧
    |(2:ℚ) * (9/10)| < |(2:ℚ)| := by
  have h := c7_deferred_decay 0 0 [⟨true, 0, 0, 0, 2, false, none, 0⟩] 0
    ⟨true, 0, 0, 0, 2, false, none, 0⟩ rfl
  exact ⟨h.1, h.2 rfl (by norm_num)⟩

/-- `add_pending_mhashes` on the child at `index` of the snapshot list:
models `worksource.add_pending_mhashes(amount)` inside `_start_fetcher`. -/
def add_pending_mhashes (children : List Child) (index : ℕ) (amount : ℚ) : List Child :=
  children.set index
    (let c := children.getD index default
     { c with mhashes_pending := c.mhashes_pending + amount })

theorem add_pending_mhashes_length (children : List Child) (index : ℕ) (amount : ℚ) :
    (add_pending_mhashes children index amount).length = children.length := by
  unfold add_pending_mhashes
  exact children.length_set ..

/-- One pass of the inner ring walk of `_start_fetcher` (source lines
179-193).  `steps` counts the remaining ring positions (the walk visits
exactly `len(children)` positions); `index` is the current position.  A
leaf child needs `2^32/10^6` pending mega-hashes (a group needs none); if
the child is eligible (or `force` is set) it is optimistically debited and
its recursive `start_fetchers(1, jobs)` answer (the `respond` oracle) is
consulted.  Following the source: the debit is refunded when the answer is
*not* `False`; a truthy answer returns immediately (`Sum.inr`), a `0`
answer records `best = 0` and the walk continues; a `False` answer leaves
the debit in place and the walk continues.  `Sum.inl` carries the state at
the end of a full walk: `(children, found, best)`. -/
def required_mhashes (c : Child) : ℚ :=
  if c.is_group then 0 else 2 ^ 32 / 1000000

def walkRing (jobs : ℕ) (force : Bool) :
    ℕ → ℕ → List Child → Bool → Option ℕ →
      (List Child × Bool × Option ℕ) ⊕ (ℕ × ℕ × List Child)
  | 0, _, children, found, best => Sum.inl (children, found, best)
  | steps+1, index, children, found, best =>
    let worksource := children.getD index default
    let nextIndex := if children.length ≤ index + 1 then 0 else index + 1
    if force = true ∨ required_mhashes worksource ≤ worksource.mhashes_pending then
      let children1 :=
        if required_mhashes worksource ≠ 0 then
          add_pending_mhashes children index (-(required_mhashes worksource))
        else children
      match worksource.respond_result with
      | none => walkRing jobs force steps nextIndex children1 true best
      | some r =>
        let children2 :=
          if required_mhashes worksource ≠ 0 then
            add_pending_mhashes children1 index (required_mhashes worksource)
          else children1
        if r ≠ 0 then Sum.inr (r, worksource.respond_jobs, children2)
        else walkRing jobs force steps nextIndex children2 true (some 0)
    else walkRing jobs force steps nextIndex children found best

/-- The outer retry loop of `_start_fetcher` (source lines 173-198),
tracking the `iteration` counter and the `force` flag.  Returns the
result (`none` marks fuel exhaustion, which provably never happens from
the top-level entry), the final children snapshot, and the trace of the
`force` flag at the start of each full-ring walk. -/
def fetchLoop (granularity timestep : ℚ) (jobs : ℕ) :
    ℕ → List Child → ℕ → Bool → ℕ → Option ℕ →
      Option ((Option ℕ) × ℕ) × List Child × List Bool
  | 0, children, _, _, _, _ => (none, children, [])
  | fuel+1, children, startindex, force, iteration, best =>
    match walkRing jobs force children.length startindex children false best with
    | Sum.inr (r, gotjobs, children1) => (some (some r, gotjobs), children1, [force])
    | Sum.inl (children1, found, best1) =>
      if found then (some (best1, 0), children1, [force])
      else if 150 < iteration + 1 then
        (some (best1, 0), distribute_mhashes granularity timestep children1, [force])
      else
        let next := fetchLoop granularity timestep jobs fuel
          (distribute_mhashes granularity timestep children1) startindex
          (if 100 < iteration + 1 then true else force) (iteration + 1) best1
        (next.1, next.2.1, force :: next.2.2)

/-- `_get_start_index` (source lines 162-166). -/
def get_start_index (last_index n : ℕ) : ℕ :=
  if n ≤ last_index + 1 then 0 else last_index + 1

/-- `_start_fetcher` (source lines 169-198): snapshot the children, rotate
the start index, and run the bounded retry loop with fuel `160 > 151`. -/
def start_fetcher_run (granularity timestep : ℚ) (jobs : ℕ) (children : List Child)
    (last_index : ℕ) (force : Bool) :
    Option ((Option ℕ) × ℕ) × List Child × List Bool :=
  fetchLoop granularity timestep jobs 160 children
    (get_start_index last_index children.length) force 0 none

theorem ite_add_pending_length (c : Prop) [Decidable c] (cs : List Child) (i : ℕ) (a : ℚ) :
    (if c then add_pending_mhashes cs i a else cs).length = cs.length := by
  split <;> simp [add_pending_mhashes_length]

theorem walkRing_inl_length (jobs : ℕ) (force : Bool) :
    ∀ (steps index : ℕ) (children : List Child) (found : Bool) (best : Option ℕ)
      (cs1 : List Child) (fd : Bool) (b1 : Option ℕ),
      walkRing jobs force steps index children found best = Sum.inl (cs1, fd, b1) →
      cs1.length = children.length := by
  intro steps
  induction steps with
  | zero =>
    intro index children found best cs1 fd b1 h
    simp only [walkRing, Sum.inl.injEq, Prod.mk.injEq] at h
    rw [← h.1]
  | succ n ih =>
    intro index children found best cs1 fd b1 h
    simp only [walkRing] at h
    split at h
    · split at h
      · rw [ih _ _ _ _ _ _ _ h, ite_add_pending_length]
      · split at h
        · exact absurd h (by simp)
        · rw [ih _ _ _ _ _ _ _ h, ite_add_pending_length, ite_add_pending_length]
    · exact ih _ _ _ _ _ _ _ h

theorem walkRing_inr_length (jobs : ℕ) (force : Bool) :
    ∀ (steps index : ℕ) (children : List Child) (found : Bool) (best : Option ℕ)
      (r gj : ℕ) (cs1 : List Child),
      walkRing jobs force steps index children found best = Sum.inr (r, gj, cs1) →
      cs1.length = children.length := by
  intro steps
  induction steps with
  | zero =>
    intro index children found best r gj cs1 h
    exact absurd h (by simp [walkRing])
  | succ n ih =>
    intro index children found best r gj cs1 h
    simp only [walkRing] at h
    split at h
    · split at h
      · rw [ih _ _ _ _ _ _ _ h, ite_add_pending_length]
      · split at h
        · simp only [Sum.inr.injEq, Prod.mk.injEq] at h
          rw [← h.2.2, ite_add_pending_length, ite_add_pending_length]
        · rw [ih _ _ _ _ _ _ _ h, ite_add_pending_length, ite_add_pending_length]
    · exact ih _ _ _ _ _ _ _ h

theorem walkRing_found (jobs : ℕ) (force : Bool) :
    ∀ (steps index : ℕ) (children : List Child) (best : Option ℕ)
      (cs1 : List Child) (fd : Bool) (b1 : Option ℕ),
      walkRing jobs force steps index children true best = Sum.inl (cs1, fd, b1) →
      fd = true := by
  intro steps
  induction steps with
  | zero =>
    intro index children best cs1 fd b1 h
    simp only [walkRing, Sum.inl.injEq, Prod.mk.injEq] at h
    exact h.2.1.symm
  | succ n ih =>
    intro index children best cs1 fd b1 h
    simp only [walkRing] at h
    split at h
    · split at h
      · exact ih _ _ _ _ _ _ h
      · split at h
        · exact absurd h (by simp)
        · exact ih _ _ _ _ _ _ h
    · exact ih _ _ _ _ _ _ h

theorem walkRing_forced (jobs : ℕ) (force : Bool) (hf : force = true) :
    ∀ (steps index : ℕ) (children : List Child) (found : Bool) (best : Option ℕ)
      (cs1 : List Child) (fd : Bool) (b1 : Option ℕ), 0 < steps →
      walkRing jobs force steps index children found best = Sum.inl (cs1, fd, b1) →
      fd = true := by
  intro steps
  cases steps with
  | zero =>
    intro index children found best cs1 fd b1 hpos
    omega
  | succ n =>
    intro index children found best cs1 fd b1 _ h
    simp only [walkRing] at h
    rw [if_pos (Or.inl hf)] at h
    split at h
    · exact walkRing_found jobs force _ _ _ _ _ _ _ h
    · split at h
      · exact absurd h (by simp)
      · exact walkRing_found jobs force _ _ _ _ _ _ _ h

/-- With `force = true` and a nonempty ring, one more outer iteration always
ends the loop: the walk either returns a result or sets `found`. -/
theorem fetchLoop_forced_step (granularity timestep : ℚ) (jobs fuel iteration : ℕ)
    (cs : List Child) (si : ℕ) (best : Option ℕ) (hcs : cs ≠ []) :
    ∃ out cs1,
      fetchLoop granularity timestep jobs (fuel+1) cs si true iteration best =
        (some out, cs1, [true]) := by
  rcases hW : walkRing jobs true cs.length si cs false best with ⟨cs1, fd, b1⟩ | ⟨r, gj, cs1⟩
  · have hfd : fd = true :=
      walkRing_forced jobs true rfl cs.length si cs false best cs1 fd b1
        (List.length_pos.mpr hcs) hW
    subst hfd
    refine ⟨(b1, 0), cs1, ?_⟩
    simp only [fetchLoop, hW]
    rw [if_pos trivial]
  · refine ⟨(some r, gj), cs1, ?_⟩
    simp only [fetchLoop, hW]

/-- Core invariant of the outer loop of `_start_fetcher`: starting at
iteration counter `iteration` with at least `n` walks left before the
forced walk (`101 ≤ iteration + n`), with enough fuel, and with `force`
already set whenever the counter passed 100, the loop returns a result
within `n + 1` further full-ring walks, and the `force` flag recorded for
the `j`-th further walk is exactly `force ∨ 101 ≤ iteration + j`. -/
theorem fetchLoop_progress (granularity timestep : ℚ) (jobs : ℕ) :
    ∀ (n fuel iteration : ℕ) (cs : List Child) (si : ℕ) (force : Bool) (best : Option ℕ),
      cs ≠ [] → 101 ≤ iteration + n → n + 1 ≤ fuel → (101 ≤ iteration → force = true) →
      ∃ out cs1 tr,
        fetchLoop granularity timestep jobs fuel cs si force iteration best =
          (some out, cs1, tr) ∧
        tr.length ≤ n + 1 ∧
        ∀ j (hj : j < tr.length),
          tr.get ⟨j, hj⟩ = (force || decide (101 ≤ iteration + j)) := by
  intro n
  induction n with
  | zero =>
    intro fuel iteration cs si force best hcs hiter hfuel hforce
    have hf : force = true := hforce (by omega)
    subst hf
    rcases fuel with _ | m
    · omega
    obtain ⟨out, cs1, hrun⟩ :=
      fetchLoop_forced_step granularity timestep jobs m iteration cs si best hcs
    refine ⟨out, cs1, [true], hrun, by simp, ?_⟩
    intro j hj
    have hj0 : j = 0 := by simpa using hj
    subst hj0
    simp
  | succ n ih =>
    intro fuel iteration cs si force best hcs hiter hfuel hforce
    by_cases hf : force = true
    · subst hf
      rcases fuel with _ | m
      · omega
      obtain ⟨out, cs1, hrun⟩ :=
        fetchLoop_forced_step granularity timestep jobs m iteration cs si best hcs
      refine ⟨out, cs1, [true], hrun, by simp, ?_⟩
      intro j hj
      have hj0 : j = 0 := by simpa using hj
      subst hj0
      simp
    · have hforce0 : force = false := by
        cases force with
        | false => rfl
        | true => exact absurd rfl hf
      subst hforce0
      have hiter100 : iteration ≤ 100 := by
        by_contra hgt
        exact hf (hforce (by omega))
      rcases fuel with _ | m
      · omega
      rcases hW : walkRing jobs false cs.length si cs false best with ⟨cs1, fd, b1⟩ | ⟨r, gj, cs1⟩
      · cases fd with
        | true =>
          refine ⟨(b1, 0), cs1, [false], ?_, by simp, ?_⟩
          · simp only [fetchLoop, hW]
            rw [if_pos trivial]
          · intro j hj
            have hj0 : j = 0 := by simpa using hj
            subst hj0
            simp only [List.get]
            symm
            simp only [Bool.false_or, decide_eq_false_iff_not]
            omega
        | false =>
          have hlen1 : cs1.length = cs.length :=
            walkRing_inl_length jobs false cs.length si cs false best cs1 false b1 hW
          have hlen2 : (distribute_mhashes granularity timestep cs1).length = cs.length := by
            rw [distribute_mhashes_length, hlen1]
          have hne : distribute_mhashes granularity timestep cs1 ≠ [] :=
            List.length_pos.mp (by rw [hlen2]; exact List.length_pos.mpr hcs)
          obtain ⟨out, cs2, tr, heq, hlenr, hprop⟩ :=
            ih m (iteration + 1) (distribute_mhashes granularity timestep cs1) si
              (if 100 < iteration + 1 then true else false) b1 hne (by omega) (by omega)
              (fun h101 => by rw [if_pos (by omega)])
          refine ⟨out, cs2, false :: tr, ?_, by simp; omega, ?_⟩
          · simp only [fetchLoop, hW]
            rw [if_neg (by simp), if_neg (by omega : ¬ 150 < iteration + 1), heq]
          · intro j hj
            cases j with
            | zero =>
              simp only [List.get]
              symm
              simp only [Bool.false_or, decide_eq_false_iff_not]
              omega
            | succ j =>
              have hj' : j < tr.length := by simpa using hj
              have hpj := hprop j hj'
              simp only [List.get]
              rw [hpj]
              by_cases h100 : 100 < iteration + 1
              · rw [if_pos h100]
                have h1 : (101 ≤ iteration + 1 + j) := by omega
                have h2 : (101 ≤ iteration + (j + 1)) := by omega
                simp [h1, h2]
              · rw [if_neg h100]
                have harith : iteration + 1 + j = iteration + (j + 1) := by omega
                rw [Bool.false_or, Bool.false_or, harith]
      · refine ⟨(some r, gj), cs1, [false], ?_, by simp, ?_⟩
        · simp only [fetchLoop, hW]
        · intro j hj
          have hj0 : j = 0 := by simpa using hj
          subst hj0
          simp only [List.get]
          symm
          simp only [Bool.false_or, decide_eq_false_iff_not]
          omega

/-- C4 (amended): from a nonempty children snapshot, the dispatch loop of
`_start_fetcher` always terminates with a result: it performs at most 102
full-ring walks, and the `force` flag is off for the first 101 walks and
on from the 102nd walk onward (the code escalates once the iteration
counter *exceeds* 100, i.e. after 101 completed walks, not 100). -/
theorem c4_bounded_escalation (granularity timestep : ℚ) (jobs : ℕ) (cs : List Child)
    (si : ℕ) (best : Option ℕ) (hcs : cs ≠ []) :
    ∃ out cs1 tr,
      fetchLoop granularity timestep jobs 160 cs si false 0 best = (some out, cs1, tr) ∧
      tr.length ≤ 102 ∧
      ∀ j (hj : j < tr.length), tr.get ⟨j, hj⟩ = decide (101 ≤ j) := by
  obtain ⟨out, cs1, tr, heq, hlen, hprop⟩ :=
    fetchLoop_progress granularity timestep jobs 101 160 0 cs si false best hcs
      (by omega) (by omega) (fun h => absurd h (by omega))
  refine ⟨out, cs1, tr, heq, hlen, ?_⟩
  intro j hj
  simpa using hprop j hj

/-- C4 witness: the bounded-escalation theorem applied to a concrete
single-child configuration. -/
theorem c4_bounded_escalation_witness :
    ∃ out cs1 tr,
      fetchLoop 0 0 0 160 [⟨false, 0, 0, 0, 0, false, none, 0⟩] 0 false 0 none =
        (some out, cs1, tr) ∧
      tr.length ≤ 102 ∧
      ∀ j (hj : j < tr.length), tr.get ⟨j, hj⟩ = decide (101 ≤ j) :=
  c4_bounded_escalation 0 0 0 [⟨false, 0, 0, 0, 0, false, none, 0⟩] 0 none (by simp)

/-- A disabled leaf child with no pending quota whose recursive call would
report one fetcher started: it is never eligible without `force`. -/
def c4child : Child := ⟨false, 0, 0, 0, 0, false, some 1, 0⟩

/-- C4 as the spec states it: the dispatch loop returns within at most 150
full-ring iterations and the `force` flag is on from the 101st walk onward
(escalation "after 100 full-ring iterations with no success"). -/
def c4claim (granularity timestep : ℚ) (jobs : ℕ) (cs : List Child) (si : ℕ) : Prop :=
  (fetchLoop granularity timestep jobs 160 cs si false 0 none).2.2.length ≤ 150 ∧
  ((fetchLoop granularity timestep jobs 160 cs si false 0 none).2.2.drop 100).all
    (fun b => b) = true

theorem c4_walk :
    walkRing 0 false [c4child].length 0 [c4child] false none =
      Sum.inl ([c4child], false, none) := by
  norm_num [walkRing, required_mhashes, c4child]

theorem c4_distribute : distribute_mhashes 0 0 [c4child] = [c4child] := by
  norm_num [distribute_mhashes, distribute_mhashes_core, firstPass, c4child]

theorem c4_forced (fuel iteration : ℕ) (hfuel : 0 < fuel) :
    fetchLoop 0 0 0 fuel [c4child] 0 true iteration none =
      (some (some 1, 0), [c4child], [true]) := by
  rcases fuel with _ | m
  · omega
  have hW : walkRing 0 true [c4child].length 0 [c4child] false none =
      Sum.inr (1, 0, [c4child]) := by
    norm_num [walkRing, required_mhashes, c4child, add_pending_mhashes]
  simp only [fetchLoop, hW]

theorem c4_run : ∀ (k iteration fuel : ℕ), iteration + k = 100 → k + 2 ≤ fuel →
    fetchLoop 0 0 0 fuel [c4child] 0 false iteration none =
      (some (some 1, 0), [c4child], List.replicate (k+1) false ++ [true]) := by
  intro k
  induction k with
  | zero =>
    intro iteration fuel h100 hfuel
    have hit : iteration = 100 := by omega
    subst hit
    rcases fuel with _ | m
    · omega
    simp only [fetchLoop, c4_walk]
    rw [if_neg (by simp), if_neg (by omega : ¬ (150:ℕ) < 100 + 1), c4_distribute,
      if_pos (by omega : (100:ℕ) < 100 + 1), c4_forced m (100 + 1) (by omega)]
    rfl
  | succ k ih =>
    intro iteration fuel h100 hfuel
    rcases fuel with _ | m
    · omega
    simp only [fetchLoop, c4_walk]
    rw [if_neg (by simp), if_neg (by omega : ¬ 150 < iteration + 1), c4_distribute,
      if_neg (by omega : ¬ 100 < iteration + 1), ih (iteration + 1) m (by omega) (by omega)]
    simp [List.replicate_succ]

/-- C4 counterexample: for a single never-eligible child, the 101st walk
(index 100 of the trace) still runs with `force = false`: the code only
escalates once the iteration counter exceeds 100, so the spec's
"force after 100 full-ring iterations" is off by one. -/
theorem c4_counterexample : ¬ c4claim 0 0 0 [c4child] 0 := by
  intro h
  have hrun := c4_run 100 0 160 (by omega) (by omega)
  simp only [c4claim, hrun] at h
  exact absurd h.2 (by decide)

/-- An enabled leaf child with ample pending quota (`5000 ≥ 2^32/10^6`)
whose recursive `start_fetchers(1, jobs)` call reports no progress. -/
def c2child : Child := ⟨true, 0, 0, 5000, 0, false, none, 0⟩

theorem c2_walk :
    walkRing 0 false [c2child].length 0 [c2child] false none =
      Sum.inl ([⟨true, 0, 0, 5000 + -(2 ^ 32 / 1000000), 0, false, none, 0⟩],
        true, none) := by
  norm_num [walkRing, required_mhashes, c2child, add_pending_mhashes]

theorem c2_run_fuel (m : ℕ) :
    fetchLoop 16 0 0 (m+1) [c2child] 0 false 0 none =
      (some (none, 0),
        [⟨true, 0, 0, 5000 + -(2 ^ 32 / 1000000), 0, false, none, 0⟩], [false]) := by
  simp only [fetchLoop, c2_walk]
  rw [if_pos trivial]

theorem c2_run :
    fetchLoop 16 0 0 160 [c2child] 0 false 0 none =
      (some (none, 0),
        [⟨true, 0, 0, 5000 + -(2 ^ 32 / 1000000), 0, false, none, 0⟩], [false]) :=
  c2_run_fuel 159

/-- C2: evaluating `_start_fetcher` at the failing input.  The eligible
leaf child is optimistically debited one nonce range (`2^32/10^6` MHash);
its recursive call reports no progress (`False`), and the loop ends with
the child's pending quota *still debited* — the source refunds only when
the recursive call reports progress (`if result is not False:` guards the
refund), the opposite of the spec's refund-on-no-progress. -/
theorem c2_debit_kept_on_no_progress :
    (fetchLoop 16 0 0 160 [c2child] 0 false 0 none).1 = some (none, 0) ∧
    ((fetchLoop 16 0 0 160 [c2child] 0 false 0 none).2.1.map (·.mhashes_pending)) =
      [5000 - 2 ^ 32 / 1000000] ∧
    (5000 - 2 ^ 32 / 1000000 : ℚ) ≠ c2child.mhashes_pending := by
  refine ⟨by rw [c2_run], ?_, by norm_num [c2child]⟩
  rw [c2_run]
  norm_num

/-- A work-source group: the state consulted by `start_fetchers`
(source lines 206-218).  `started` is set by the lifecycle, `enabled` and
`distribution_granularity` are settings, `children` the child list and
`last_index` the rotation cursor. -/
structure WorkSourceGroup where
  started : Bool
  enabled : Bool
  distribution_granularity : ℚ
  children : List Child
  last_index : ℕ
deriving DecidableEq

/-- `_start_fetcher` at the `Group` level: rotate the cursor, run the
bounded loop, and record the updated children snapshot and cursor.  The
fuel-exhaustion marker is replaced by `(False, 0)`; `fetchLoop_progress`
shows it is never taken for a nonempty snapshot. -/
def start_fetcher (timestep : ℚ) (g : WorkSourceGroup) (jobs : ℕ) (force : Bool) :
    ((Option ℕ) × ℕ) × WorkSourceGroup :=
  let startindex := get_start_index g.last_index g.children.length
  let r := fetchLoop g.distribution_granularity timestep jobs 160 g.children
    startindex force 0 none
  (r.1.getD (none, 0), { g with children := r.2.1, last_index := startindex })

/-- Python truthiness of a `start_fetchers` result: `False` and `0` are
falsy. -/
def result_falsy (o : Option ℕ) : Bool := o.getD 0 == 0

/-- The `while started < count and totaljobs < jobs` loop of
`start_fetchers` (source lines 211-216): each round runs `_start_fetcher`,
retries once with `force = True` on a falsy result, stops on a still-falsy
result, otherwise accumulates.  `started` grows by at least one per round,
so fuel `count` suffices; the final result is `(started, totaljobs)` when
any fetcher was started, else `(result, 0)` (source lines 217-218). -/
def sfLoop (timestep : ℚ) (count jobs : ℕ) :
    ℕ → WorkSourceGroup → ℕ → ℕ → Option ℕ → ((Option ℕ) × ℕ) × WorkSourceGroup
  | 0, g, started, totaljobs, result =>
    (if started ≠ 0 then (some started, totaljobs) else (result, 0), g)
  | fuel+1, g, started, totaljobs, result =>
    if started < count ∧ totaljobs < jobs then
      let r1 := start_fetcher timestep g jobs false
      let r2 := if result_falsy r1.1.1 then start_fetcher timestep r1.2 jobs true else r1
      if result_falsy r2.1.1 then
        (if started ≠ 0 then (some started, totaljobs) else (r2.1.1, 0), r2.2)
      else
        sfLoop timestep count jobs fuel r2.2 (started + r2.1.1.getD 0)
          (totaljobs + r2.1.2) r2.1.1
    else
      (if started ≠ 0 then (some started, totaljobs) else (result, 0), g)

/-- `start_fetchers(count, jobs)` (source lines 206-218), including the
guard on line 207: not started, disabled, no children, or a zero count
short-circuits to `(False, 0)` with the group untouched. -/
def start_fetchers (timestep : ℚ) (g : WorkSourceGroup) (count jobs : ℕ) :
    ((Option ℕ) × ℕ) × WorkSourceGroup :=
  if !g.started || !g.enabled || g.children.isEmpty || count == 0 then ((none, 0), g)
  else sfLoop timestep count jobs count g 0 0 none

/-- C5: if the group is not started, or disabled, or has no children, or
`count = 0`, then `start_fetchers` returns `(False, 0)` and the group
state — children, quota counters, rotation cursor — is unchanged. -/
theorem c5_fail_fast (timestep : ℚ) (g : WorkSourceGroup) (count jobs : ℕ)
    (h : g.started = false ∨ g.enabled = false ∨ g.children = [] ∨ count = 0) :
    start_fetchers timestep g count jobs = ((none, 0), g) := by
  unfold start_fetchers
  rcases h with h | h | h | h <;> simp [h]

/-- C5 witness: a stopped group returns `(False, 0)` unchanged. -/
theorem c5_fail_fast_witness :
    start_fetchers 0 ⟨false, true, 16, [], 0⟩ 1 1 = ((none, 0), ⟨false, true, 16, [], 0⟩) :=
  c5_fail_fast 0 ⟨false, true, 16, [], 0⟩ 1 1 (Or.inl rfl)

/-- The tree-membership state: work sources are identified by numeric ids;
`parent` is the weak back-reference, `childrenOf` each group's ordered
children sequence. -/
structure Forest where
  parent : ℕ → Option ℕ
  childrenOf : ℕ → List ℕ

/-- The ancestor walk of `add_work_source` (source lines 83-86):
`w = self; while w: ...; w = w.get_parent()` visits the node itself and
then its ancestors; `fuel` bounds the walk (any fuel larger than the
ancestor-chain depth is exact). -/
def ancestorChain (f : Forest) : ℕ → Option ℕ → List ℕ
  | 0, _ => []
  | _, none => []
  | fuel+1, some w => w :: ancestorChain f fuel (f.parent w)

/-- `remove_work_source` (source lines 101-112): remove every occurrence
of `w` from `p`'s children (the `while worksource in self.children` loop)
and clear `w`'s parent link; the per-child stop call and its exception
handling are logging-only at this level. -/
def remove_work_source (f : Forest) (p w : ℕ) : Forest :=
  { parent := fun x => if x = w then none else f.parent x,
    childrenOf := fun x => if x = p then (f.childrenOf p).filter (· ≠ w) else f.childrenOf x }

/-- `add_work_source` (source lines 81-98) on the forest state, returning
the raised exception (if any) together with the resulting state.  The
cycle walk runs *before* any mutation: on a hit the state is returned
untouched.  Otherwise the work source is detached from its old parent,
re-parented, and appended to the children unless already present (the
started-group start attempt is logging-only at this level). -/
def add_work_source (f : Forest) (fuel g w : ℕ) : Except String Unit × Forest :=
  if w ∈ ancestorChain f fuel (some g) then (Except.error "CycleError", f)
  else
    let f1 := match f.parent w with
      | some p => remove_work_source f p w
      | none => f
    let f2 : Forest := { f1 with parent := fun x => if x = w then some g else f1.parent x }
    if w ∈ f2.childrenOf g then (Except.ok (), f2)
    else (Except.ok (),
      { f2 with childrenOf := fun x =>
          if x = g then f2.childrenOf g ++ [w] else f2.childrenOf x })

/-- C3: adding a work source to a group that is the work source itself or
one of its descendants (i.e. `w` is `g` or an ancestor of `g`) raises
`CycleError` and returns the forest exactly as it was: the ancestor walk
precedes every mutation. -/
theorem c3_cycle_error (f : Forest) (fuel g w : ℕ)
    (h : w ∈ ancestorChain f fuel (some g)) :
    add_work_source f fuel g w = (Except.error "CycleError", f) := by
  unfold add_work_source
  rw [if_pos h]

/-- A two-node forest in which node `0` is the parent of node `1`. -/
def exampleForest : Forest :=
  { parent := fun n => if n = 1 then some 0 else none,
    childrenOf := fun n => if n = 0 then [1] else [] }

/-- C3 witness: moving the root `0` into its own child `1` fails with
`CycleError` and leaves the forest untouched. -/
theorem c3_cycle_error_witness :
    add_work_source exampleForest 3 1 0 = (Except.error "CycleError", exampleForest) :=
  c3_cycle_error exampleForest 3 1 0 (by
    simp [ancestorChain, exampleForest])

/-- A child as seen by the lifecycle cascade: whether its `start()` or
`stop()` raises. -/
structure LChild where
  start_raises : Bool
  stop_raises : Bool
deriving DecidableEq

/-- Observable events of the start/stop cascades. -/
inductive LifeEvent where
  | ownStart : LifeEvent
  | ownStop : LifeEvent
  | childStartOk : ℕ → LifeEvent
  | childStartFail : ℕ → LifeEvent
  | childStopOk : ℕ → LifeEvent
  | childStopFail : ℕ → LifeEvent
deriving DecidableEq

/-- The child loop of `_start` (source lines 117-123): every child is
attempted in order; an exception is caught, logged (`childStartFail`) and
the loop continues with the next child. -/
def startChildren : ℕ → List LChild → List LifeEvent
  | _, [] => []
  | i, c :: rest =>
    (if c.start_raises then LifeEvent.childStartFail i else LifeEvent.childStartOk i) ::
      startChildren (i+1) rest

/-- The child loop of `_stop` (source lines 127-133). -/
def stopChildren : ℕ → List LChild → List LifeEvent
  | _, [] => []
  | i, c :: rest =>
    (if c.stop_raises then LifeEvent.childStopFail i else LifeEvent.childStopOk i) ::
      stopChildren (i+1) rest

/-- `_start` (source lines 115-123): the group's own start hook
(`super()._start()`) runs first, then the children cascade. -/
def group_start (cs : List LChild) : List LifeEvent :=
  LifeEvent.ownStart :: startChildren 0 cs

/-- `_stop` (source lines 126-134): the children cascade runs first, the
group's own stop hook (`super()._stop()`) last. -/
def group_stop (cs : List LChild) : List LifeEvent :=
  stopChildren 0 cs ++ [LifeEvent.ownStop]

theorem startChildren_get? :
    ∀ (cs : List LChild) (k i : ℕ),
      (startChildren k cs).get? i =
        (cs.get? i).map (fun c =>
          if c.start_raises then LifeEvent.childStartFail (k+i)
          else LifeEvent.childStartOk (k+i)) := by
  intro cs
  induction cs with
  | nil => intro k i; simp [startChildren]
  | cons c rest ih =>
    intro k i
    cases i with
    | zero => simp [startChildren]
    | succ i =>
      simp only [startChildren, List.get?]
      rw [ih (k+1) i]
      have : k + 1 + i = k + (i + 1) := by omega
      rw [this]

theorem stopChildren_get? :
    ∀ (cs : List LChild) (k i : ℕ),
      (stopChildren k cs).get? i =
        (cs.get? i).map (fun c =>
          if c.stop_raises then LifeEvent.childStopFail (k+i)
          else LifeEvent.childStopOk (k+i)) := by
  intro cs
  induction cs with
  | nil => intro k i; simp [stopChildren]
  | cons c rest ih =>
    intro k i
    cases i with
    | zero => simp [stopChildren]
    | succ i =>
      simp only [stopChildren, List.get?]
      rw [ih (k+1) i]
      have : k + 1 + i = k + (i + 1) := by omega
      rw [this]

theorem stopChildren_length : ∀ (cs : List LChild) (k : ℕ),
    (stopChildren k cs).length = cs.length := by
  intro cs
  induction cs with
  | nil => intro k; rfl
  | cons c rest ih => intro k; simp [stopChildren, ih]

/-- C9: the start cascade runs the group's own hook first and then
attempts every child in order — a raising child is recorded as a caught
failure and does not stop the cascade; the stop cascade attempts every
child in order first and runs the group's own hook last. -/
theorem c9_lifecycle_cascade (cs : List LChild) :
    (group_start cs).get? 0 = some LifeEvent.ownStart ∧
    (∀ i c, cs.get? i = some c → (group_start cs).get? (i+1) =
      some (if c.start_raises then LifeEvent.childStartFail i
            else LifeEvent.childStartOk i)) ∧
    (∀ i c, cs.get? i = some c → (group_stop cs).get? i =
      some (if c.stop_raises then LifeEvent.childStopFail i
            else LifeEvent.childStopOk i)) ∧
    (group_stop cs).get? cs.length = some LifeEvent.ownStop := by
  refine ⟨rfl, ?_, ?_, ?_⟩
  · intro i c hc
    unfold group_start
    simp only [List.get?]
    rw [startChildren_get? cs 0 i, hc]
    simp
  · intro i c hc
    unfold group_stop
    have hi : i < cs.length := by
      rcases List.get?_eq_some.mp hc with ⟨hlt, _⟩
      exact hlt
    rw [List.get?_append (by rw [stopChildren_length]; exact hi)]
    rw [stopChildren_get? cs 0 i, hc]
    simp
  · unfold group_stop
    rw [List.get?_append_right (by rw [stopChildren_length])]
    rw [stopChildren_length]
    simp

/-- C9 witness: the cascades on a concrete two-child list in which the
first child's start raises and the second child's stop raises. -/
theorem c9_lifecycle_cascade_witness :
    (group_start [⟨true, false⟩, ⟨false, true⟩]).get? 1 =
      some (LifeEvent.childStartFail 0) ∧
    (group_start [⟨true, false⟩, ⟨false, true⟩]).get? 2 =
      some (LifeEvent.childStartOk 1) ∧
    (group_stop [⟨true, false⟩, ⟨false, true⟩]).get? 1 =
      some (LifeEvent.childStopFail 1) ∧
    (group_stop [⟨true, false⟩, ⟨false, true⟩]).get? 2 = some LifeEvent.ownStop := by
  have h := c9_lifecycle_cascade [⟨true, false⟩, ⟨false, true⟩]
  exact ⟨h.2.1 0 ⟨true, false⟩ rfl, h.2.1 1 ⟨false, true⟩ rfl,
    h.2.2.1 1 ⟨false, true⟩ rfl, h.2.2.2⟩

/-- `apply_settings` for the `distribution_granularity` key (source lines
66-69): an absent or falsy (zero) value is replaced by the default `16`;
any other value is kept. -/
def apply_settings_granularity : Option ℚ → Option ℚ
  | none => some 16
  | some v => if v = 0 then some 16 else some v

/-- C10 as the spec states it: after `apply_settings` the granularity is
always present and *positive*. -/
def c10claim : Prop :=
  ∀ s : Option ℚ, ∃ v, apply_settings_granularity s = some v ∧ 0 < v

/-- C10 counterexample: a configured value of `-1` is truthy, so
`apply_settings` keeps it; the result is present and non-zero but not
positive. -/
theorem c10_counterexample : ¬ c10claim := by
  intro h
  obtain ⟨v, hv, hpos⟩ := h (some (-1))
  have hv' : apply_settings_granularity (some (-1)) = some (-1 : ℚ) := by
    norm_num [apply_settings_granularity]
  rw [hv'] at hv
  have : (-1 : ℚ) = v := by injection hv
  rw [← this] at hpos
  norm_num at hpos

/-- C10 (amended): after `apply_settings` the granularity is always
present and non-zero, and an absent or zero value is replaced by the
default `16`; positivity, however, holds only for non-negative
configurations. -/
theorem c10_granularity_nonzero (s : Option ℚ) :
    ∃ v, apply_settings_granularity s = some v ∧ v ≠ 0 ∧
      ((s = none ∨ s = some 0) → v = 16) := by
  match s with
  | none => exact ⟨16, rfl, by norm_num, fun _ => rfl⟩
  | some v =>
    by_cases hv : v = 0
    · subst hv
      refine ⟨16, by norm_num [apply_settings_granularity], by norm_num, fun _ => rfl⟩
    · refine ⟨v, by simp [apply_settings_granularity, hv], hv, ?_⟩
      rintro (h | h)
      · exact absurd h (by simp)
      · exact absurd (by injection h) hv

/-- C10 witness: the amended theorem at an absent configuration. -/
theorem c10_granularity_nonzero_witness :
    ∃ v, apply_settings_granularity none = some v ∧ v ≠ 0 ∧
      (((none : Option ℚ) = none ∨ (none : Option ℚ) = some 0) → v = 16) :=
  c10_granularity_nonzero none
